import Mathlib

/-!
Shallow embedding of the task/subtask/user manager of the todo-app repository
(internal/manager/task_manager.go and internal/manager/user_manager.go),
in-memory mode (storage == nil), together with theorems checking the
natural-language specification against it.

Modelling conventions:
* Go strings are modelled as lists of runes (`List Nat` of code points).
  `strings.TrimSpace` is modelled over the Latin-1 white-space runes
  (space, TAB, LF, VT, FF, CR, NEL, NBSP), `strings.ToLower` over the
  ASCII letters; Go's `len` on a string counts UTF-8 BYTES, modelled as
  the sum of the UTF-8 encoded widths of the runes (`byteLen`).
* `time.Time` is modelled as an integer count of nanoseconds in a fixed
  (UTC-like) location; the Go zero `time.Time` is the integer 0, matching
  the `IsZero` checks of the source.  `time.Date(y,m,d,0,0,0,0,loc)`
  truncation to midnight is floor-division by the nanoseconds of one day,
  and `AddDate(0,0,k)` adds `k` days.
* The Go maps `tasks map[int]Task` and `users map[int]*User` are modelled
  as association lists; `m[k] = v` replaces an existing binding or appends
  a fresh one, `delete` removes the binding.  Where Go iterates a map in
  unspecified order the embedding iterates the association list in list
  order; every theorem below is insensitive to that order (results are
  either sorted, or stated as permutations / memberships).
* Functions that read `time.Now()` take the current instant as an explicit
  `now` argument.
* Go error values are modelled by their kind only: the description
  validation failures of the source map to `TError.validation`, the
  "задача с ID %d не найдена" failures to `TError.notFound`.
-/

namespace TodoApp

/-- Decidable equality of `Except` results, for evaluating witnesses. -/
instance {ε α : Type} [DecidableEq ε] [DecidableEq α] : DecidableEq (Except ε α) := fun x y =>
  match x, y with
  | .ok a, .ok b =>
    if h : a = b then .isTrue (by rw [h]) else .isFalse (by intro hc; cases hc; exact h rfl)
  | .error a, .error b =>
    if h : a = b then .isTrue (by rw [h]) else .isFalse (by intro hc; cases hc; exact h rfl)
  | .ok _, .error _ => .isFalse (by intro hc; cases hc)
  | .error _, .ok _ => .isFalse (by intro hc; cases hc)

/-- A Go string, as its list of rune code points. -/
abbrev GoStr := List Nat

/-- Convert a Lean string literal to the rune-list model of a Go string. -/
def goStr (s : String) : GoStr := s.data.map Char.toNat

/-- White-space runes recognised by `strings.TrimSpace` within Latin-1:
space, TAB..CR, NEL (U+0085), NBSP (U+00A0). -/
def isSpaceRune (n : Nat) : Bool := n == 32 || (9 ≤ n && n ≤ 13) || n == 133 || n == 160

/-- Model of `strings.TrimSpace`: drop white space from both ends. -/
def trimSpace (s : GoStr) : GoStr :=
  ((s.dropWhile isSpaceRune).reverse.dropWhile isSpaceRune).reverse

/-- Number of bytes of the UTF-8 encoding of one rune. -/
def utf8Len (n : Nat) : Nat :=
  if n < 128 then 1 else if n < 2048 then 2 else if n < 65536 then 3 else 4

/-- Model of Go's `len` on a string: the UTF-8 byte count of the rune list. -/
def byteLen : GoStr → Nat
  | [] => 0
  | c :: s => utf8Len c + byteLen s

/-- Model of `strings.ToLower` on one rune (ASCII letters). -/
def toLowerRune (n : Nat) : Nat := if 65 ≤ n ∧ n ≤ 90 then n + 32 else n

/-- Model of `strings.ToLower` on a Go string. -/
def toLowerS (s : GoStr) : GoStr := s.map toLowerRune

/-- The recursion of `normalizeTags` (task_manager.go:155-167): `seen` holds
the lower-cased forms already emitted (the Go `seen` map). -/
def normTagsAux : List GoStr → List GoStr → List GoStr
  | [], _ => []
  | tag :: rest, seen =>
    let t := trimSpace tag
    let lower := toLowerS t
    if t ≠ [] ∧ lower ∉ seen then t :: normTagsAux rest (lower :: seen)
    else normTagsAux rest seen

/-- Model of `normalizeTags` (task_manager.go:155-167). -/
def normalizeTags (tags : List GoStr) : List GoStr := normTagsAux tags []

/-- The `Priority` string type of the source. -/
abbrev Priority := GoStr

/-- `PriorityLow`. -/
def prioLow : Priority := goStr "low"
/-- `PriorityMedium`. -/
def prioMedium : Priority := goStr "medium"
/-- `PriorityHigh`. -/
def prioHigh : Priority := goStr "high"

/-- Model of the `Task` struct (task_manager.go:77-87); times are integer
nanosecond instants, `dueDate = 0` is the Go zero `time.Time`. -/
structure Task where
  id : Int
  userID : Int
  description : GoStr
  createdAt : Int
  updatedAt : Int
  completed : Bool
  priority : Priority
  dueDate : Int
  tags : List GoStr
deriving DecidableEq

/-- Model of `UpdateTaskRequest` (task_manager.go:99-105): every field is a
nullable pointer in the source, hence an `Option` here. -/
structure UpdateTaskRequest where
  description : Option GoStr
  completed : Option Bool
  priority : Option Priority
  dueDate : Option Int
  tags : Option (List GoStr)
deriving DecidableEq

/-- Error kinds of the manager operations (see §7 of the spec). -/
inductive TError where
  | validation
  | notFound
deriving DecidableEq

/-- Association-list lookup, modelling a read of a Go `map[int]`. -/
def lookupL {α : Type} : List (Int × α) → Int → Option α
  | [], _ => none
  | (k, v) :: m, id => if k = id then some v else lookupL m id

/-- Replace every binding of key `k` by `v` (a Go map has at most one). -/
def replaceL {α : Type} : List (Int × α) → Int → α → List (Int × α)
  | [], _, _ => []
  | (a, b) :: m, k, v => if a = k then (k, v) :: replaceL m k v else (a, b) :: replaceL m k v

/-- Association-list store, modelling `m[k] = v` on a Go map: replace the
binding when the key is present, append it otherwise. -/
def setL {α : Type} (m : List (Int × α)) (k : Int) (v : α) : List (Int × α) :=
  if (lookupL m k).isSome then replaceL m k v
  else m ++ [(k, v)]

/-- Association-list delete, modelling `delete(m, k)`. -/
def delL {α : Type} (m : List (Int × α)) (k : Int) : List (Int × α) :=
  m.filter (fun p => !(p.1 == k))

/-- Model of the mutable state of a `TaskManager` in in-memory mode:
the `tasks` map and the `nextID` counter. -/
structure TMState where
  tasks : List (Int × Task)
  nextID : Int
deriving DecidableEq

/-- The fresh `TaskManager` built by `NewTaskManager`. -/
def tmEmpty : TMState := { tasks := [], nextID := 1 }

/-- Model of `AddTaskForUser` (task_manager.go:170-221), in-memory branch.
Returns the result of the call and the state after it.  The
`len(description) > 1000` check of the source counts UTF-8 bytes. -/
def addTaskForUser (now uid : Int) (description : GoStr) (tags : List GoStr)
    (st : TMState) : Except TError Int × TMState :=
  if description = [] then (.error .validation, st)
  else if 1000 < byteLen description then (.error .validation, st)
  else
    let id := st.nextID
    let task : Task :=
      { id := id, userID := uid, description := description,
        createdAt := now, updatedAt := now, completed := false,
        priority := prioMedium, dueDate := 0, tags := normalizeTags tags }
    (.ok id, { tasks := setL st.tasks id task, nextID := st.nextID + 1 })

/-- Model of `UpdateTask` (task_manager.go:228-287), in-memory branch.
The optional fields are applied in source order; the description is
re-validated when present (`len` again counting UTF-8 bytes); `updatedAt`
is always refreshed on success. -/
def updateTask (now id : Int) (req : UpdateTaskRequest) (st : TMState) :
    Except TError Task × TMState :=
  match lookupL st.tasks id with
  | none => (.error .notFound, st)
  | some task =>
    match req.description with
    | some d =>
      if d = [] then (.error .validation, st)
      else if 1000 < byteLen d then (.error .validation, st)
      else updateRest now id { task with description := d } req st
    | none => updateRest now id task req st
where
  /-- The non-failing tail of `UpdateTask`: apply the remaining optional
  fields, refresh `updatedAt`, store and return the task. -/
  updateRest (now id : Int) (task : Task) (req : UpdateTaskRequest)
      (st : TMState) : Except TError Task × TMState :=
    let t1 := match req.completed with
      | none => task
      | some c => { task with completed := c }
    let t2 := match req.priority with
      | none => t1
      | some p => { t1 with priority := p }
    let t3 := match req.dueDate with
      | none => t2
      | some d => { t2 with dueDate := d }
    let t4 := match req.tags with
      | none => t3
      | some ts => { t3 with tags := normalizeTags ts }
    let t5 := { t4 with updatedAt := now }
    (.ok t5, { st with tasks := setL st.tasks id t5 })

/-- Model of `DeleteTask` (task_manager.go:289-317), in-memory branch. -/
def deleteTask (id : Int) (st : TMState) : Except TError Unit × TMState :=
  match lookupL st.tasks id with
  | none => (.error .notFound, st)
  | some _ => (.ok (), { st with tasks := delL st.tasks id })

/-- Model of `ToggleComplete` (task_manager.go:343-374), in-memory branch. -/
def toggleComplete (now id : Int) (st : TMState) : Except TError Task × TMState :=
  match lookupL st.tasks id with
  | none => (.error .notFound, st)
  | some task =>
    let t := { task with completed := !task.completed, updatedAt := now }
    (.ok t, { st with tasks := setL st.tasks id t })

/-- The task value written back by one `ToggleComplete` call on `task` at
instant `n`: the completed flag flipped, `updatedAt` refreshed. -/
def flipTask (n : Int) (task : Task) : Task :=
  { task with completed := !task.completed, updatedAt := n }

/-- The state reached by a sequence of `ToggleComplete` calls on one id,
each call made at its own instant. -/
def toggleRun (id : Int) (nows : List Int) (st : TMState) : TMState :=
  nows.foldl (fun s n => (toggleComplete n id s).2) st

/-- Model of `FilterOptions` (task_manager.go:121-128); every field optional,
`tags` a plain (possibly empty) list as in the source. -/
structure FilterOptions where
  completed : Option Bool
  priority : Option Priority
  tags : List GoStr
  startDate : Option Int
  endDate : Option Int
  hasDueDate : Option Bool
deriving DecidableEq

/-- The `options.Completed` test of `FilterTasksAdvanced` (go:598-600). -/
def matchCompleted (o : FilterOptions) (t : Task) : Bool :=
  match o.completed with
  | none => true
  | some c => t.completed == c

/-- The `options.Priority` test (go:602-604). -/
def matchPriority (o : FilterOptions) (t : Task) : Bool :=
  match o.priority with
  | none => true
  | some p => t.priority == p

/-- The tag test (go:606-623): OR over the supplied tags, each compared
lower-cased (and the filter tag also trimmed) against the task's tags. -/
def matchTags (o : FilterOptions) (t : Task) : Bool :=
  if o.tags.isEmpty then true
  else o.tags.any fun ft => t.tags.any fun tt => toLowerS tt == trimSpace (toLowerS ft)

/-- The `options.HasDueDate` test (go:625-630). -/
def matchHasDue (o : FilterOptions) (t : Task) : Bool :=
  match o.hasDueDate with
  | none => true
  | some b => (!(t.dueDate == 0)) == b

/-- The due-date interval test (go:632-643): when either bound is supplied a
zero due date is excluded, then each supplied bound is checked inclusively. -/
def matchDates (o : FilterOptions) (t : Task) : Bool :=
  if o.startDate.isSome || o.endDate.isSome then
    (!(t.dueDate == 0))
    && (match o.startDate with
        | none => true
        | some s => !(decide (t.dueDate < s)))
    && (match o.endDate with
        | none => true
        | some e => !(decide (e < t.dueDate)))
  else true

/-- The whole `continue`-chain of `FilterTasksAdvanced` (go:597-646) as one
predicate: a task is kept iff no clause skips it. -/
def matchesFilter (o : FilterOptions) (t : Task) : Bool :=
  matchCompleted o t && matchPriority o t && matchTags o t
    && matchHasDue o t && matchDates o t

/-- The order imposed by the `sort.Slice` comparator of `FilterTasksAdvanced`
(go:648-659), as the reflexive total preorder `¬ less b a`: dated tasks by due
date (inclusive), every dated task before every dateless one, dateless tasks
by id. -/
def taskLe (a b : Task) : Prop :=
  if a.dueDate = 0 then (if b.dueDate = 0 then a.id ≤ b.id else False)
  else (if b.dueDate = 0 then True else a.dueDate ≤ b.dueDate)

instance : DecidableRel taskLe := fun a b => by unfold taskLe; infer_instance

/-- Model of `FilterTasksAdvanced` (task_manager.go:582-662), in-memory
branch, on a snapshot of the task map's values: filter by the predicate
chain, then sort by the comparator. -/
def filterTasksAdvanced (o : FilterOptions) (tasks : List Task) : List Task :=
  List.insertionSort taskLe (tasks.filter (fun t => matchesFilter o t))

/-- The predicate of claim C4, written from the spec's words: the conjunction
of completion equality, priority equality, case-insensitive tag membership
(OR across the supplied tag list), the has-due-date flag, and inclusive
due-date interval membership with dateless tasks excluded whenever a bound is
supplied. -/
def specMatches (o : FilterOptions) (t : Task) : Prop :=
  (∀ c, o.completed = some c → t.completed = c)
  ∧ (∀ p, o.priority = some p → t.priority = p)
  ∧ (o.tags ≠ [] → ∃ ft ∈ o.tags, ∃ tt ∈ t.tags, toLowerS tt = trimSpace (toLowerS ft))
  ∧ (∀ b, o.hasDueDate = some b → ((t.dueDate ≠ 0) ↔ b = true))
  ∧ (∀ s, o.startDate = some s → t.dueDate ≠ 0 ∧ s ≤ t.dueDate)
  ∧ (∀ e, o.endDate = some e → t.dueDate ≠ 0 ∧ t.dueDate ≤ e)

/-- The result order claimed by C4: due date ascending among dated tasks,
every dateless task after every dated one, ties among dateless tasks by
ascending id. -/
def claimedOrder (a b : Task) : Prop :=
  (a.dueDate ≠ 0 ∧ b.dueDate = 0)
  ∨ (a.dueDate ≠ 0 ∧ b.dueDate ≠ 0 ∧ a.dueDate ≤ b.dueDate)
  ∨ (a.dueDate = 0 ∧ b.dueDate = 0 ∧ a.id ≤ b.id)

/-- Nanoseconds of one day, the unit of the day-truncation model. -/
def nsPerDay : Int := 86400000000000

/-- Truncation of an instant to its day's midnight,
modelling `time.Date(t.Year(), t.Month(), t.Day(), 0, 0, 0, 0, loc)`. -/
def dayStart (t : Int) : Int := nsPerDay * (Int.fdiv t nsPerDay)

/-- Ordering of tasks by due date, the `sort.Slice` comparator of
`GetUpcomingTasks` read as a reflexive total preorder. -/
def dueLe (a b : Task) : Prop := a.dueDate ≤ b.dueDate

instance : DecidableRel dueLe := fun a b => by unfold dueLe; infer_instance

/-- Model of `GetUpcomingTasks` (task_manager.go:463-489), in-memory branch,
on a snapshot of the task map's values; `now` is the `time.Now()` instant.
`today.Add(-time.Nanosecond)` makes the lower bound inclusive, and
`endDate = today.AddDate(0, 0, days+1)` is exclusive. -/
def getUpcomingTasks (now days : Int) (tasks : List Task) : List Task :=
  let today := dayStart now
  let endDate := today + (days + 1) * nsPerDay
  List.insertionSort dueLe (tasks.filter fun t =>
    !(t.dueDate == 0) && !t.completed
      && decide (today - 1 < dayStart t.dueDate)
      && decide (dayStart t.dueDate < endDate))

/-- The membership condition claimed by C5: not completed, has a due date,
and the day-truncated due date lies in the half-open window
`[today 00:00, today 00:00 + (days+1) days)`. -/
def specUpcoming (now days : Int) (t : Task) : Prop :=
  t.completed = false ∧ t.dueDate ≠ 0
    ∧ dayStart now ≤ dayStart t.dueDate
    ∧ dayStart t.dueDate < dayStart now + (days + 1) * nsPerDay

/-- Lexicographic order on rune lists, modelling the byte-wise string order
used by `sort.Strings`. -/
def lexLe : GoStr → GoStr → Prop
  | [], _ => True
  | _ :: _, [] => False
  | a :: as, b :: bs => a < b ∨ (a = b ∧ lexLe as bs)

/-- Decision procedure for `lexLe`. -/
def decLexLe : (xs ys : GoStr) → Decidable (lexLe xs ys)
  | [], _ => .isTrue True.intro
  | _ :: _, [] => .isFalse id
  | x :: xs, y :: ys =>
    haveI : Decidable (lexLe xs ys) := decLexLe xs ys
    inferInstanceAs (Decidable (x < y ∨ (x = y ∧ lexLe xs ys)))

instance : DecidableRel lexLe := decLexLe

/-- All tags of all tasks of a snapshot, in order (the inner loops of
`GetAllTags`). -/
def collectTags : List Task → List GoStr
  | [] => []
  | t :: ts => t.tags ++ collectTags ts

/-- Model of `GetAllTags` (task_manager.go:440-461) on a snapshot of the task
map's values: every tag lower-cased and trimmed, empties dropped, collected
as a set (`dedup`), then sorted with `sort.Strings`.  The Go map iteration
order is immaterial: the sorted deduplicated result is canonical. -/
def getAllTags (tasks : List Task) : List GoStr :=
  List.insertionSort lexLe
    ((((collectTags tasks).map (fun tg => toLowerS (trimSpace tg))).filter
        (fun s => !(s == []))).dedup)

/-- Model of the `User` struct (task_manager.go:130-137); the `FCMToken`
field plays no role in any claim and is omitted. -/
structure User where
  id : Int
  deviceID : GoStr
  telegramID : Int
  createdAt : Int
  updatedAt : Int
deriving DecidableEq

/-- Model of the mutable state of a `UserManager` in in-memory mode
(user_manager.go:14-19): the `users` map and the `nextID` counter. -/
structure UMState where
  users : List (Int × User)
  nextID : Int
deriving DecidableEq

/-- The fresh `UserManager` built by `NewUserManager(nil)`. -/
def umEmpty : UMState := { users := [], nextID := 1 }

/-- Model of `CreateUser` (user_manager.go:37-65), in-memory branch: no
uniqueness check of any kind is performed. -/
def createUser (now : Int) (deviceID : GoStr) (telegramID : Int) (st : UMState) :
    User × UMState :=
  let u : User := { id := st.nextID, deviceID := deviceID, telegramID := telegramID,
                    createdAt := now, updatedAt := now }
  (u, { users := setL st.users u.id u, nextID := st.nextID + 1 })

/-- First user of the map whose `TelegramID` equals `tid`, modelling the
lookup loop of `GetOrCreateUserByTelegramID` (go:151-155).  Go iterates the
map in unspecified order; under the telegram-id uniqueness invariant at most
one user matches, so first-match is faithful. -/
def findTid : List (Int × User) → Int → Option User
  | [], _ => none
  | (_, u) :: m, tid => if u.telegramID = tid then some u else findTid m tid

/-- The decimal rendering of `fmt.Sprintf("telegram_%d", telegramID)`. -/
def telegramDeviceID (tid : Int) : GoStr :=
  goStr "telegram_" ++
    (if tid < 0 then 45 :: (Nat.toDigits 10 tid.natAbs).map Char.toNat
     else (Nat.toDigits 10 tid.natAbs).map Char.toNat)

/-- Model of `GetOrCreateUserByTelegramID` (user_manager.go:121-171),
in-memory branch: look the identity up first; only on a miss create a user
whose device id is derived from the telegram id. -/
def getOrCreateUserByTelegramID (now tid : Int) (st : UMState) : User × UMState :=
  match findTid st.users tid with
  | some u => (u, st)
  | none =>
    let u : User := { id := st.nextID, deviceID := telegramDeviceID tid,
                      telegramID := tid, createdAt := now, updatedAt := now }
    (u, { users := setL st.users u.id u, nextID := st.nextID + 1 })

/-- Claim C7's uniqueness reading for device identities: no two map entries
carry the same `deviceID`. -/
def deviceIDUnique (st : UMState) : Prop :=
  ∀ i j u v, lookupL st.users i = some u → lookupL st.users j = some v →
    u.deviceID = v.deviceID → i = j

/-- Telegram-id uniqueness of a user map: the stored telegram ids are
pairwise distinct. -/
def tidUnique (users : List (Int × User)) : Prop :=
  (users.map (fun p => p.2.telegramID)).Nodup

instance : IsTrans Task taskLe :=
  ⟨by
    intro a b c hab hbc
    unfold taskLe at *
    split_ifs at * <;> first | trivial | omega⟩

instance : IsTotal Task taskLe :=
  ⟨by
    intro a b
    unfold taskLe
    split_ifs <;> first | trivial | simp | omega⟩

instance : IsTrans Task dueLe :=
  ⟨by intro a b c hab hbc; unfold dueLe at *; omega⟩

instance : IsTotal Task dueLe :=
  ⟨by intro a b; unfold dueLe; omega⟩

theorem lexLe_trans : ∀ a b c : GoStr, lexLe a b → lexLe b c → lexLe a c
  | [], _, _, _, _ => True.intro
  | _ :: _, [], _, h, _ => h.elim
  | _ :: _, _ :: _, [], _, h => h.elim
  | a :: as, b :: bs, c :: cs, h1, h2 => by
    rcases h1 with h1 | ⟨rfl, h1⟩
    · rcases h2 with h2 | ⟨rfl, h2⟩
      · exact Or.inl (Nat.lt_trans h1 h2)
      · exact Or.inl h1
    · rcases h2 with h2 | ⟨rfl, h2⟩
      · exact Or.inl h2
      · exact Or.inr ⟨rfl, lexLe_trans as bs cs h1 h2⟩

theorem lexLe_total : ∀ a b : GoStr, lexLe a b ∨ lexLe b a
  | [], _ => Or.inl True.intro
  | _ :: _, [] => Or.inr True.intro
  | a :: as, b :: bs => by
    rcases Nat.lt_trichotomy a b with h | h | h
    · exact Or.inl (Or.inl h)
    · subst h
      rcases lexLe_total as bs with h2 | h2
      · exact Or.inl (Or.inr ⟨rfl, h2⟩)
      · exact Or.inr (Or.inr ⟨rfl, h2⟩)
    · exact Or.inr (Or.inl h)

instance : IsTrans GoStr lexLe := ⟨lexLe_trans⟩

instance : IsTotal GoStr lexLe := ⟨lexLe_total⟩

@[simp] theorem lookupL_nil {α : Type} (k : Int) : lookupL ([] : List (Int × α)) k = none := rfl

@[simp] theorem lookupL_cons {α : Type} (a : Int) (b : α) (m : List (Int × α)) (k : Int) :
    lookupL ((a, b) :: m) k = if a = k then some b else lookupL m k := rfl

theorem lookupL_replaceL_self {α : Type} (m : List (Int × α)) (k : Int) (v : α)
    (h : (lookupL m k).isSome) :
    lookupL (replaceL m k v) k = some v := by
  induction m with
  | nil => simp at h
  | cons a m ih =>
    obtain ⟨ak, av⟩ := a
    by_cases hk : ak = k
    · simp [replaceL, hk]
    · simp only [lookupL_cons, if_neg hk] at h
      simpa [replaceL, hk] using ih h

theorem lookupL_append_self {α : Type} (m : List (Int × α)) (k : Int) (v : α)
    (h : lookupL m k = none) :
    lookupL (m ++ [(k, v)]) k = some v := by
  induction m with
  | nil => simp
  | cons a m ih =>
    obtain ⟨ak, av⟩ := a
    by_cases hk : ak = k
    · simp [hk] at h
    · simp only [lookupL_cons, if_neg hk] at h
      simpa [hk] using ih h

theorem lookupL_setL_self {α : Type} (m : List (Int × α)) (k : Int) (v : α) :
    lookupL (setL m k v) k = some v := by
  unfold setL
  split
  case isTrue h => exact lookupL_replaceL_self m k v h
  case isFalse h =>
    exact lookupL_append_self m k v (by cases hx : lookupL m k <;> simp [hx] at h ⊢)

theorem updateRest_shape (now id : Int) (task : Task) (req : UpdateTaskRequest)
    (st : TMState) :
    ∃ t2, updateTask.updateRest now id task req st
      = (.ok t2, { st with tasks := setL st.tasks id t2 }) :=
  ⟨_, rfl⟩

/-- Claim C3: for every id not present in the task map, `UpdateTask`,
`DeleteTask` and `ToggleComplete` (in-memory mode) each return a
`NotFoundError` and leave the whole state — task map and id counter —
exactly as it was before the call. -/
theorem claim_C3_notFound_preserves_state (now id : Int) (req : UpdateTaskRequest)
    (st : TMState) (h : lookupL st.tasks id = none) :
    updateTask now id req st = (.error .notFound, st)
    ∧ deleteTask id st = (.error .notFound, st)
    ∧ toggleComplete now id st = (.error .notFound, st) := by
  refine ⟨?_, ?_, ?_⟩ <;> simp [updateTask, deleteTask, toggleComplete, h]

/-- Witness for C3 on a concrete state: id 7 is absent from the one-task map. -/
theorem claim_C3_witness :
    updateTask 0 7 ⟨none, none, none, none, none⟩
        { tasks := [(1, ⟨1, 1, goStr "x", 0, 0, false, prioMedium, 0, []⟩)], nextID := 2 }
      = (.error .notFound,
         { tasks := [(1, ⟨1, 1, goStr "x", 0, 0, false, prioMedium, 0, []⟩)], nextID := 2 }) :=
  (claim_C3_notFound_preserves_state 0 7 ⟨none, none, none, none, none⟩
    { tasks := [(1, ⟨1, 1, goStr "x", 0, 0, false, prioMedium, 0, []⟩)], nextID := 2 }
    (by decide)).1

theorem byteLen_ascii (s : GoStr) (h : ∀ c ∈ s, c < 128) : byteLen s = s.length := by
  induction s with
  | nil => rfl
  | cons c s ih =>
    have hc := h c (List.mem_cons_self _ _)
    simp only [byteLen, utf8Len, if_pos hc, List.length_cons,
      ih (fun x hx => h x (List.mem_cons_of_mem _ hx))]
    omega

set_option maxRecDepth 40000 in
/-- Counterexample to claim C2: the source validates `len(description)`,
which counts UTF-8 BYTES, not characters.  A description of exactly 1000
characters, each the two-byte rune `д` (U+0434), has 2000 bytes, so `Create`
rejects it with a validation error — and `Update` with the same present
description does too — although the claim says a description of exactly 1000
characters succeeds. -/
theorem claim_C2_counterexample :
    (List.replicate 1000 1076 : GoStr).length = 1000
    ∧ byteLen (List.replicate 1000 1076) = 2000
    ∧ (addTaskForUser 0 1 (List.replicate 1000 1076) [] tmEmpty).1 = .error .validation
    ∧ (updateTask 5 1 ⟨some (List.replicate 1000 1076), none, none, none, none⟩
        { tasks := [(1, ⟨1, 1, goStr "x", 0, 0, false, prioMedium, 0, []⟩)], nextID := 2 }).1
      = .error .validation := by
  refine ⟨by decide, by decide, by decide, by decide⟩

/-- Amended C2: the description bound of `Create` (in-memory mode) and of
`Update` with a present description field is 1000 UTF-8 BYTES, not 1000
characters: both succeed exactly when the description is non-empty and at
most 1000 bytes, and fail with a `ValidationError` otherwise (so for an
all-ASCII description the spec's 1000-character boundary holds, bytes and
characters coinciding); in `Update` a present-but-empty description is
itself a `ValidationError` rather than a no-op, while an absent description
field leaves the stored description unchanged. -/
theorem claim_C2_description_byte_validation (now uid id : Int) (d : GoStr)
    (tags : List GoStr) (req : UpdateTaskRequest) (st : TMState) :
    ((∃ v, (addTaskForUser now uid d tags st).1 = .ok v) ↔ (d ≠ [] ∧ byteLen d ≤ 1000))
    ∧ (¬(d ≠ [] ∧ byteLen d ≤ 1000) →
        (addTaskForUser now uid d tags st).1 = .error .validation)
    ∧ (∀ task, lookupL st.tasks id = some task → req.description = some d →
        ((∃ t2, (updateTask now id req st).1 = .ok t2) ↔ (d ≠ [] ∧ byteLen d ≤ 1000)))
    ∧ (∀ task, lookupL st.tasks id = some task → req.description = some d →
        ¬(d ≠ [] ∧ byteLen d ≤ 1000) →
        updateTask now id req st = (.error .validation, st))
    ∧ (∀ task t2 st2, lookupL st.tasks id = some task → req.description = none →
        updateTask now id req st = (.ok t2, st2) →
        t2.description = task.description ∧ lookupL st2.tasks id = some t2)
    ∧ ((∀ c ∈ d, c < 128) → byteLen d = d.length) := by
  refine ⟨?_, ?_, ?_, ?_, ?_, byteLen_ascii d⟩
  · by_cases hd : d = []
    · simp [addTaskForUser, hd]
    · by_cases hl : 1000 < byteLen d
      · simp [addTaskForUser, hd, hl] <;> omega
      · simp [addTaskForUser, hd, hl] <;> omega
  · intro hbad
    by_cases hd : d = []
    · simp [addTaskForUser, hd]
    · by_cases hl : 1000 < byteLen d
      · simp [addTaskForUser, hd, hl]
      · exact absurd ⟨hd, by omega⟩ hbad
  · intro task hlk hdesc
    by_cases hd : d = []
    · simp [updateTask, hlk, hdesc, hd]
    · by_cases hl : 1000 < byteLen d
      · simp [updateTask, hlk, hdesc, hd, hl] <;> omega
      · obtain ⟨t2, hshape⟩ :=
          updateRest_shape now id { task with description := d } req st
        simp [updateTask, hlk, hdesc, hd, hl, hshape] <;> omega
  · intro task hlk hdesc hbad
    by_cases hd : d = []
    · simp [updateTask, hlk, hdesc, hd]
    · by_cases hl : 1000 < byteLen d
      · simp [updateTask, hlk, hdesc, hd, hl]
      · exact absurd ⟨hd, by omega⟩ hbad
  · intro task t2 st2 hlk hdesc heq
    rcases req with ⟨rd, rc, rp, rdd, rt⟩
    cases hdesc
    cases rc <;> cases rp <;> cases rdd <;> cases rt <;>
      · simp only [updateTask, hlk, updateTask.updateRest, Prod.mk.injEq,
          Except.ok.injEq] at heq
        obtain ⟨h1, h2⟩ := heq
        subst h2
        subst h1
        exact ⟨rfl, lookupL_setL_self st.tasks id _⟩

set_option maxRecDepth 40000 in
/-- Witness for the amended C2: a creation with 1000 ASCII characters
(1000 bytes) succeeds, and a present-but-empty description in an update of
the one-task state is rejected with a validation error, not treated as a
no-op. -/
theorem claim_C2_witness :
    (∃ v, (addTaskForUser 0 1 (List.replicate 1000 97) [] tmEmpty).1 = .ok v)
    ∧ updateTask 5 1 ⟨some [], none, none, none, none⟩
        { tasks := [(1, ⟨1, 1, goStr "x", 0, 0, false, prioMedium, 0, []⟩)], nextID := 2 }
      = (.error .validation,
         { tasks := [(1, ⟨1, 1, goStr "x", 0, 0, false, prioMedium, 0, []⟩)], nextID := 2 }) :=
  ⟨((claim_C2_description_byte_validation 0 1 1 (List.replicate 1000 97) []
      ⟨some [], none, none, none, none⟩ tmEmpty).1).mpr ⟨by decide, by decide⟩,
   (claim_C2_description_byte_validation 5 1 1 [] []
      ⟨some [], none, none, none, none⟩
      { tasks := [(1, ⟨1, 1, goStr "x", 0, 0, false, prioMedium, 0, []⟩)], nextID := 2 }).2.2.2.1
     ⟨1, 1, goStr "x", 0, 0, false, prioMedium, 0, []⟩ (by decide) rfl (by simp)⟩

theorem dropWhile_idem (p : Nat → Bool) (l : List Nat) :
    (l.dropWhile p).dropWhile p = l.dropWhile p := by
  induction l with
  | nil => rfl
  | cons a l ih =>
    by_cases hp : p a = true
    · simpa [List.dropWhile_cons, hp] using ih
    · simp [List.dropWhile_cons, hp]

theorem exists_append_dropWhile (p : Nat → Bool) (l : List Nat) :
    ∃ m, l = m ++ l.dropWhile p := by
  induction l with
  | nil => exact ⟨[], rfl⟩
  | cons a l ih =>
    by_cases hp : p a = true
    · obtain ⟨m, hm⟩ := ih
      exact ⟨a :: m, by simpa [List.dropWhile_cons, hp] using hm⟩
    · exact ⟨[], by simp [List.dropWhile_cons, hp]⟩

theorem dropWhile_eq_self_of_append (p : Nat → Bool) (m t : List Nat)
    (h : (m ++ t).dropWhile p = m ++ t) : m.dropWhile p = m := by
  cases m with
  | nil => rfl
  | cons a m2 =>
    by_cases hp : p a = true
    · exfalso
      simp only [List.cons_append, List.dropWhile_cons, hp, if_true] at h
      have hlen := (List.dropWhile_sublist (l := m2 ++ t) p).length_le
      rw [h] at hlen
      simp at hlen
    · simp [List.dropWhile_cons, hp]

theorem trimSpace_idem (s : GoStr) : trimSpace (trimSpace s) = trimSpace s := by
  unfold trimSpace
  set d := s.dropWhile isSpaceRune with hd
  set e := d.reverse.dropWhile isSpaceRune with he
  have hde : (e.reverse).dropWhile isSpaceRune = e.reverse := by
    obtain ⟨m, hm⟩ := exists_append_dropWhile isSpaceRune d.reverse
    have hdm : d = e.reverse ++ m.reverse := by
      have := congrArg List.reverse hm
      simpa [he] using this
    have hdd : ((e.reverse ++ m.reverse).dropWhile isSpaceRune) = e.reverse ++ m.reverse := by
      rw [← hdm]
      exact dropWhile_idem isSpaceRune s
    exact dropWhile_eq_self_of_append isSpaceRune e.reverse m.reverse hdd
  rw [hde]
  simp only [List.reverse_reverse]
  rw [show e.dropWhile isSpaceRune = e from dropWhile_idem isSpaceRune d.reverse]

theorem normTagsAux_mem (l seen : List GoStr) :
    ∀ t ∈ normTagsAux l seen, trimSpace t = t ∧ t ≠ [] := by
  induction l generalizing seen with
  | nil => intro t ht; simp [normTagsAux] at ht
  | cons tag rest ih =>
    intro t ht
    simp only [normTagsAux] at ht
    split at ht
    case isTrue h =>
      rcases List.mem_cons.mp ht with h1 | h1
      · subst h1
        exact ⟨trimSpace_idem tag, h.1⟩
      · exact ih _ t h1
    case isFalse h => exact ih _ t ht

theorem normTagsAux_lower_nodup (l : List GoStr) : ∀ seen : List GoStr,
    ((normTagsAux l seen).map toLowerS).Nodup
    ∧ ∀ t ∈ normTagsAux l seen, toLowerS t ∉ seen := by
  induction l with
  | nil => intro seen; simp [normTagsAux]
  | cons tag rest ih =>
    intro seen
    simp only [normTagsAux]
    split
    case isTrue h =>
      obtain ⟨ihn, ihs⟩ := ih (toLowerS (trimSpace tag) :: seen)
      refine ⟨?_, ?_⟩
      · simp only [List.map_cons, List.nodup_cons]
        refine ⟨?_, ihn⟩
        intro hmem
        obtain ⟨t, ht, hteq⟩ := List.mem_map.mp hmem
        exact (ihs t ht) (by rw [hteq]; exact List.mem_cons_self _ _)
      · intro t ht
        rcases List.mem_cons.mp ht with h1 | h1
        · subst h1; exact h.2
        · intro hseen
          exact (ihs t h1) (List.mem_cons_of_mem _ hseen)
    case isFalse h => exact ih seen

theorem normTagsAux_eq_self (l : List GoStr) : ∀ seen : List GoStr,
    (∀ t ∈ l, trimSpace t = t ∧ t ≠ []) → ((l.map toLowerS).Nodup) →
    (∀ t ∈ l, toLowerS t ∉ seen) → normTagsAux l seen = l := by
  induction l with
  | nil => intro seen _ _ _; rfl
  | cons t rest ih =>
    intro seen h1 h2 h3
    obtain ⟨htr, hne⟩ := h1 t (List.mem_cons_self _ _)
    rw [List.map_cons, List.nodup_cons] at h2
    obtain ⟨hhead, htail⟩ := h2
    simp only [normTagsAux, htr]
    rw [if_pos ⟨hne, h3 t (List.mem_cons_self _ _)⟩]
    congr 1
    apply ih
    · exact fun x hx => h1 x (List.mem_cons_of_mem _ hx)
    · exact htail
    · intro x hx
      simp only [List.mem_cons]
      push_neg
      refine ⟨?_, h3 x (List.mem_cons_of_mem _ hx)⟩
      intro hcontra
      exact hhead (by rw [← hcontra]; exact List.mem_map_of_mem toLowerS hx)

/-- Claim C10 part 1: `normalizeTags` is idempotent. -/
theorem normalizeTags_idem_aux (xs : List GoStr) :
    normalizeTags (normalizeTags xs) = normalizeTags xs := by
  unfold normalizeTags
  apply normTagsAux_eq_self
  · exact normTagsAux_mem xs []
  · exact (normTagsAux_lower_nodup xs []).1
  · intro t _; simp

/-- Claim C1: `Create` stores the normalized tag list: the stored task of a
successful `AddTaskForUser` carries `normalizeTags tags`; every entry of a
normalized list is non-empty and whitespace-trimmed; its entries are pairwise
distinct under case-insensitive (trimmed) comparison; and the spec's concrete
example normalizes to exactly `["Tag"]`. -/
theorem claim_C1_create_normalizes_tags (now uid : Int) (d : GoStr)
    (tags : List GoStr) (st : TMState) (hd : d ≠ []) (hlen : byteLen d ≤ 1000) :
    (∃ st2, addTaskForUser now uid d tags st = (.ok st.nextID, st2)
        ∧ lookupL st2.tasks st.nextID
            = some ⟨st.nextID, uid, d, now, now, false, prioMedium, 0, normalizeTags tags⟩)
    ∧ (∀ t ∈ normalizeTags tags, trimSpace t = t ∧ t ≠ [])
    ∧ ((normalizeTags tags).map toLowerS).Nodup
    ∧ normalizeTags [goStr " Tag ", goStr "tag", goStr "TAG", goStr "", goStr "  "]
        = [goStr "Tag"] := by
  have h2 : ¬(1000 < byteLen d) := by omega
  refine ⟨⟨TMState.mk
      (setL st.tasks st.nextID
        (Task.mk st.nextID uid d now now false prioMedium 0 (normalizeTags tags)))
      (st.nextID + 1), ?_, ?_⟩,
    normTagsAux_mem tags [], (normTagsAux_lower_nodup tags []).1, by decide⟩
  · unfold addTaskForUser
    rw [if_neg hd, if_neg h2]
  · exact lookupL_setL_self st.tasks st.nextID _

/-- Witness for C1 at the concrete input of the spec's example, on the empty
manager: the stored tag list is exactly `["Tag"]`. -/
theorem claim_C1_witness :
    ∃ st2, addTaskForUser 0 1 (goStr "x")
        [goStr " Tag ", goStr "tag", goStr "TAG", goStr "", goStr "  "] tmEmpty
        = (.ok tmEmpty.nextID, st2)
      ∧ lookupL st2.tasks tmEmpty.nextID
          = some ⟨tmEmpty.nextID, 1, goStr "x", 0, 0, false, prioMedium, 0,
              normalizeTags [goStr " Tag ", goStr "tag", goStr "TAG", goStr "", goStr "  "]⟩ :=
  (claim_C1_create_normalizes_tags 0 1 (goStr "x")
    [goStr " Tag ", goStr "tag", goStr "TAG", goStr "", goStr "  "] tmEmpty
    (by decide) (by decide)).1

/-- Claim C10: tag normalization is idempotent, and re-submitting a task's
already-stored (hence already-normalized) tags through `Update` leaves the
stored tag list unchanged. -/
theorem claim_C10_normalize_idempotent :
    (∀ xs : List GoStr, normalizeTags (normalizeTags xs) = normalizeTags xs)
    ∧ (∀ (now id : Int) (st : TMState) (task : Task) (ys : List GoStr)
        (t2 : Task) (st2 : TMState),
        lookupL st.tasks id = some task → task.tags = normalizeTags ys →
        updateTask now id ⟨none, none, none, none, some task.tags⟩ st = (.ok t2, st2) →
        t2.tags = task.tags ∧ lookupL st2.tasks id = some t2) := by
  refine ⟨normalizeTags_idem_aux, ?_⟩
  intro now id st task ys t2 st2 hlk htags heq
  simp only [updateTask, hlk, updateTask.updateRest, Prod.mk.injEq, Except.ok.injEq] at heq
  obtain ⟨h1, hst2⟩ := heq
  subst hst2
  subst h1
  constructor
  · simp only [htags]
    exact normalizeTags_idem_aux ys
  · exact lookupL_setL_self st.tasks id _

/-- Witness for C10: updating the one-task state (stored tags `["A"]`,
previously normalized from `[" A ", "a"]`) with its own tag list leaves the
stored tags unchanged. -/
theorem claim_C10_witness :
    (⟨1, 1, goStr "x", 0, 9, false, prioMedium, 0, [goStr "A"]⟩ : Task).tags
        = (⟨1, 1, goStr "x", 0, 0, false, prioMedium, 0, [goStr "A"]⟩ : Task).tags
    ∧ lookupL [(1, (⟨1, 1, goStr "x", 0, 9, false, prioMedium, 0, [goStr "A"]⟩ : Task))] 1
        = some ⟨1, 1, goStr "x", 0, 9, false, prioMedium, 0, [goStr "A"]⟩ :=
  (claim_C10_normalize_idempotent).2 9 1
    { tasks := [(1, ⟨1, 1, goStr "x", 0, 0, false, prioMedium, 0, [goStr "A"]⟩)], nextID := 2 }
    ⟨1, 1, goStr "x", 0, 0, false, prioMedium, 0, [goStr "A"]⟩
    [goStr " A ", goStr "a"]
    ⟨1, 1, goStr "x", 0, 9, false, prioMedium, 0, [goStr "A"]⟩
    { tasks := [(1, ⟨1, 1, goStr "x", 0, 9, false, prioMedium, 0, [goStr "A"]⟩)], nextID := 2 }
    (by decide) (by decide) (by decide)

/-- Counterexample to claim C9: the in-memory `UpdateTask` performs no
priority validation at all.  On a one-task state, an update whose priority
field carries `"urgent"` — not one of low/medium/high — succeeds and stores
the invalid priority instead of failing with a `ValidationError`. -/
theorem claim_C9_counterexample :
    ((updateTask 5 1 ⟨none, none, some (goStr "urgent"), none, none⟩
        { tasks := [(1, ⟨1, 1, goStr "x", 0, 0, false, prioMedium, 0, []⟩)], nextID := 2 }).1
      = .ok ⟨1, 1, goStr "x", 0, 5, false, goStr "urgent", 0, []⟩)
    ∧ ((updateTask 5 1 ⟨none, none, some (goStr "urgent"), none, none⟩
        { tasks := [(1, ⟨1, 1, goStr "x", 0, 0, false, prioMedium, 0, []⟩)], nextID := 2 }).1
      ≠ .error .validation)
    ∧ (lookupL (updateTask 5 1 ⟨none, none, some (goStr "urgent"), none, none⟩
        { tasks := [(1, ⟨1, 1, goStr "x", 0, 0, false, prioMedium, 0, []⟩)], nextID := 2 }).2.tasks 1).map
          Task.priority = some (goStr "urgent")
    ∧ goStr "urgent" ≠ prioLow ∧ goStr "urgent" ≠ prioMedium ∧ goStr "urgent" ≠ prioHigh := by
  refine ⟨by decide, by decide, by decide, by decide, by decide, by decide⟩

/-- Amended C9: for every existing task id, an update whose priority field is
present stores that priority value verbatim — whatever it is, inside or
outside {low, medium, high} — and the operation succeeds; no `ValidationError`
is raised for an invalid priority (only the description field is validated). -/
theorem updateRest_priority (now id : Int) (p : Priority) (task : Task)
    (req : UpdateTaskRequest) (st : TMState) (hp : req.priority = some p) :
    ∃ t2, updateTask.updateRest now id task req st
        = (.ok t2, { st with tasks := setL st.tasks id t2 })
      ∧ t2.priority = p := by
  rcases req with ⟨rd, rc, rp, rdd, rt⟩
  cases hp
  cases rc <;> cases rdd <;> cases rt <;> exact ⟨_, rfl, rfl⟩

theorem claim_C9_priority_stored_unvalidated (now id : Int) (p : Priority)
    (req : UpdateTaskRequest) (st : TMState) (task : Task)
    (hlk : lookupL st.tasks id = some task)
    (hdesc : req.description = none) (hprio : req.priority = some p) :
    ∃ t2, updateTask now id req st = (.ok t2, { st with tasks := setL st.tasks id t2 })
      ∧ t2.priority = p ∧ lookupL (setL st.tasks id t2) id = some t2 := by
  obtain ⟨t2, heq, hp2⟩ := updateRest_priority now id p task req st hprio
  refine ⟨t2, ?_, hp2, lookupL_setL_self st.tasks id t2⟩
  rw [show updateTask now id req st = updateTask.updateRest now id task req st from by
    simp [updateTask, hlk, hdesc]]
  exact heq

/-- Witness for the amended C9 at the concrete `"urgent"` update. -/
theorem claim_C9_witness :
    ∃ t2, updateTask 5 1 ⟨none, none, some (goStr "urgent"), none, none⟩
        { tasks := [(1, ⟨1, 1, goStr "x", 0, 0, false, prioMedium, 0, []⟩)], nextID := 2 }
      = (.ok t2,
         { tasks := setL [(1, ⟨1, 1, goStr "x", 0, 0, false, prioMedium, 0, []⟩)] 1 t2,
           nextID := 2 })
      ∧ t2.priority = goStr "urgent"
      ∧ lookupL (setL [(1, ⟨1, 1, goStr "x", 0, 0, false, prioMedium, 0, []⟩)] 1 t2) 1
          = some t2 :=
  claim_C9_priority_stored_unvalidated 5 1 (goStr "urgent")
    ⟨none, none, some (goStr "urgent"), none, none⟩
    { tasks := [(1, ⟨1, 1, goStr "x", 0, 0, false, prioMedium, 0, []⟩)], nextID := 2 }
    ⟨1, 1, goStr "x", 0, 0, false, prioMedium, 0, []⟩
    (by decide) rfl rfl

theorem toggle_step (n id : Int) (st : TMState) (task : Task)
    (h : lookupL st.tasks id = some task) :
    toggleComplete n id st
      = (.ok (flipTask n task), { st with tasks := setL st.tasks id (flipTask n task) }) := by
  simp [toggleComplete, flipTask, h]

theorem toggleRun_parity (id : Int) (nows : List Int) : ∀ (st : TMState) (task : Task),
    lookupL st.tasks id = some task →
    ∃ t2, lookupL (toggleRun id nows st).tasks id = some t2
      ∧ t2.completed = (task.completed ^^ decide (nows.length % 2 = 1)) := by
  induction nows with
  | nil => intro st task h; exact ⟨task, h, by simp⟩
  | cons n rest ih =>
    intro st task h
    have hstep := toggle_step n id st task h
    have hrun : toggleRun id (n :: rest) st
        = toggleRun id rest (toggleComplete n id st).2 := rfl
    rw [hrun, hstep]
    obtain ⟨t2, ht2, hc⟩ := ih
      { st with tasks := setL st.tasks id (flipTask n task) }
      (flipTask n task)
      (lookupL_setL_self st.tasks id _)
    refine ⟨t2, ht2, ?_⟩
    rw [hc]
    simp only [List.length_cons, flipTask]
    have hpar : ((rest.length + 1) % 2 = 1) ↔ ¬(rest.length % 2 = 1) := by omega
    by_cases hq : rest.length % 2 = 1
    · simp [hq, hpar, Bool.xor_comm]
    · simp [hq, hpar, Bool.xor_comm]

/-- Claim C6: starting from `completed = false`, a sequence of K
`ToggleComplete` calls on the same id (the per-operation mutex of the source
serialises concurrent calls, so any concurrent execution is some such
sequence) leaves the task with `completed == (K is odd)`; moreover no call is
lost: every call on an existing id succeeds, flips the completed flag, and
refreshes `updatedAt` to the call's instant. -/
theorem claim_C6_toggle_parity (id : Int) (nows : List Int) (st : TMState)
    (task : Task) (h : lookupL st.tasks id = some task)
    (h0 : task.completed = false) :
    (∃ t2, lookupL (toggleRun id nows st).tasks id = some t2
        ∧ t2.completed = decide (nows.length % 2 = 1))
    ∧ (∀ (n : Int) (s : TMState) (t0 : Task), lookupL s.tasks id = some t0 →
        toggleComplete n id s
          = (.ok (flipTask n t0), { s with tasks := setL s.tasks id (flipTask n t0) })
          ∧ (flipTask n t0).completed = !t0.completed
          ∧ (flipTask n t0).updatedAt = n) := by
  constructor
  · obtain ⟨t2, ht2, hc⟩ := toggleRun_parity id nows st task h
    exact ⟨t2, ht2, by rw [hc, h0]; simp⟩
  · exact fun n s t0 h1 => ⟨toggle_step n id s t0 h1, rfl, rfl⟩

/-- Witness for C6: three toggles on the one-task state end with
`completed = true`. -/
theorem claim_C6_witness :
    ∃ t2, lookupL (toggleRun 1 [10, 20, 30]
        { tasks := [(1, ⟨1, 1, goStr "x", 0, 0, false, prioMedium, 0, []⟩)], nextID := 2 }).tasks 1
      = some t2 ∧ t2.completed = decide (([10, 20, 30] : List Int).length % 2 = 1) :=
  (claim_C6_toggle_parity 1 [10, 20, 30]
    { tasks := [(1, ⟨1, 1, goStr "x", 0, 0, false, prioMedium, 0, []⟩)], nextID := 2 }
    ⟨1, 1, goStr "x", 0, 0, false, prioMedium, 0, []⟩ (by decide) rfl).1

theorem matchCompleted_iff (o : FilterOptions) (t : Task) :
    matchCompleted o t = true ↔ (∀ c, o.completed = some c → t.completed = c) := by
  cases h : o.completed <;> simp [matchCompleted, h]

theorem matchPriority_iff (o : FilterOptions) (t : Task) :
    matchPriority o t = true ↔ (∀ p, o.priority = some p → t.priority = p) := by
  cases h : o.priority <;> simp [matchPriority, h]

theorem matchTags_iff (o : FilterOptions) (t : Task) :
    matchTags o t = true ↔
      (o.tags ≠ [] → ∃ ft ∈ o.tags, ∃ tt ∈ t.tags, toLowerS tt = trimSpace (toLowerS ft)) := by
  cases h : o.tags with
  | nil => simp [matchTags, h]
  | cons a l =>
    simp [matchTags, h, List.any_eq_true]

theorem matchHasDue_iff (o : FilterOptions) (t : Task) :
    matchHasDue o t = true ↔ (∀ b, o.hasDueDate = some b → ((t.dueDate ≠ 0) ↔ b = true)) := by
  cases h : o.hasDueDate with
  | none => simp [matchHasDue, h]
  | some b => cases b <;> simp [matchHasDue, h]

theorem matchDates_iff (o : FilterOptions) (t : Task) :
    matchDates o t = true ↔
      ((∀ s, o.startDate = some s → t.dueDate ≠ 0 ∧ s ≤ t.dueDate)
        ∧ (∀ e, o.endDate = some e → t.dueDate ≠ 0 ∧ t.dueDate ≤ e)) := by
  cases hs : o.startDate <;> cases he : o.endDate <;>
      simp [matchDates, hs, he] <;> tauto

theorem matchesFilter_iff_spec (o : FilterOptions) (t : Task) :
    matchesFilter o t = true ↔ specMatches o t := by
  unfold matchesFilter specMatches
  simp only [Bool.and_eq_true, matchCompleted_iff, matchPriority_iff, matchTags_iff,
    matchHasDue_iff, matchDates_iff]
  tauto

theorem taskLe_imp_claimedOrder (a b : Task) (h : taskLe a b) : claimedOrder a b := by
  unfold taskLe at h
  unfold claimedOrder
  by_cases ha : a.dueDate = 0 <;> by_cases hb : b.dueDate = 0 <;> simp [ha, hb] at h ⊢
  · exact h
  · exact h

/-- Claim C4: `FilterTasksAdvanced` returns exactly the tasks of the snapshot
satisfying the conjunction of all supplied predicates (completion equality,
priority equality, case-insensitive tag membership with OR across the tag
list, the has-due-date flag, and inclusive due-date interval membership with
dateless tasks excluded when a bound is supplied), ordered by due date
ascending with dateless tasks after all dated ones and ties among dateless
tasks broken by ascending id. -/
theorem claim_C4_filter_advanced (o : FilterOptions) (tasks : List Task) :
    List.Perm (filterTasksAdvanced o tasks) (tasks.filter (fun t => matchesFilter o t))
    ∧ (∀ t, matchesFilter o t = true ↔ specMatches o t)
    ∧ (∀ t, t ∈ filterTasksAdvanced o tasks ↔ (t ∈ tasks ∧ specMatches o t))
    ∧ (filterTasksAdvanced o tasks).Pairwise claimedOrder := by
  refine ⟨List.perm_insertionSort taskLe _, fun t => matchesFilter_iff_spec o t, ?_, ?_⟩
  · intro t
    unfold filterTasksAdvanced
    rw [List.mem_insertionSort, List.mem_filter, matchesFilter_iff_spec]
  · exact (List.sorted_insertionSort taskLe _).imp
      (fun {a b} h => taskLe_imp_claimedOrder a b h)

theorem dayStart_of_day_multiple (q k : Int) :
    dayStart (dayStart q + k * nsPerDay) = dayStart q + k * nsPerDay := by
  unfold dayStart
  have h : nsPerDay * Int.fdiv q nsPerDay + k * nsPerDay
      = nsPerDay * (Int.fdiv q nsPerDay + k) := by ring
  rw [h, Int.mul_fdiv_cancel_left _ (by norm_num [nsPerDay])]

theorem mem_getUpcomingTasks (now days : Int) (tasks : List Task) (t : Task) :
    t ∈ getUpcomingTasks now days tasks ↔ (t ∈ tasks ∧ specUpcoming now days t) := by
  have harith : ∀ x : Int, (dayStart now - 1 < x) ↔ (dayStart now ≤ x) := by omega
  simp only [getUpcomingTasks, List.mem_insertionSort, List.mem_filter, Bool.and_eq_true,
    Bool.not_eq_true', beq_iff_eq, beq_eq_false_iff_ne, ne_eq, decide_eq_true_eq,
    specUpcoming, harith]
  tauto

/-- Claim C5: `GetUpcomingTasks(n)` returns exactly the snapshot's tasks that
are not completed, have a due date, and whose day-truncated due date lies in
`[today 00:00, today 00:00 + (n+1) days)`; in particular a task due exactly
`n` days from today is included, one due `n+1` days out is excluded, a
completed task is excluded and a dateless task is excluded; the result is
sorted ascending by due date. -/
theorem claim_C5_upcoming_window (now days : Int) (tasks : List Task) :
    (∀ t, t ∈ getUpcomingTasks now days tasks ↔ (t ∈ tasks ∧ specUpcoming now days t))
    ∧ (getUpcomingTasks now days tasks).Pairwise (fun a b => a.dueDate ≤ b.dueDate)
    ∧ (∀ t, t.completed = true → t ∉ getUpcomingTasks now days tasks)
    ∧ (∀ t, t.dueDate = 0 → t ∉ getUpcomingTasks now days tasks)
    ∧ (0 ≤ days → ∀ t ∈ tasks, t.completed = false →
        t.dueDate = dayStart now + days * nsPerDay → t.dueDate ≠ 0 →
        t ∈ getUpcomingTasks now days tasks)
    ∧ (∀ t, t.dueDate = dayStart now + (days + 1) * nsPerDay →
        t ∉ getUpcomingTasks now days tasks) := by
  refine ⟨mem_getUpcomingTasks now days tasks, ?_, ?_, ?_, ?_, ?_⟩
  · exact (List.sorted_insertionSort dueLe _).imp (fun {a b} h => h)
  · intro t hc hmem
    have hs := ((mem_getUpcomingTasks now days tasks t).mp hmem).2.1
    rw [hc] at hs
    cases hs
  · intro t hz hmem
    exact ((mem_getUpcomingTasks now days tasks t).mp hmem).2.2.1 hz
  · intro hdays t hmem hc hdue hnz
    refine (mem_getUpcomingTasks now days tasks t).mpr ⟨hmem, hc, hnz, ?_, ?_⟩
    · rw [hdue, dayStart_of_day_multiple]
      have : 0 ≤ days * nsPerDay := by
        have : (0 : Int) ≤ nsPerDay := by norm_num [nsPerDay]
        exact mul_nonneg hdays this
      omega
    · rw [hdue, dayStart_of_day_multiple]
      simp only [nsPerDay]
      omega
  · intro t hdue hmem
    have hs := ((mem_getUpcomingTasks now days tasks t).mp hmem).2.2.2.2
    rw [hdue, dayStart_of_day_multiple] at hs
    omega

theorem mem_collectTags (ts : List Task) (x : GoStr) :
    x ∈ collectTags ts ↔ ∃ t ∈ ts, x ∈ t.tags := by
  induction ts with
  | nil => simp [collectTags]
  | cons t ts ih => simp [collectTags, ih]

/-- Counterexample to claim C8: `GetAllTags` lower-cases every tag, so the
first-seen casing of a stored tag does NOT survive.  A single task whose
stored (normalized) tag list is `["Tag"]` yields `["tag"]`, not `["Tag"]`. -/
theorem claim_C8_counterexample :
    getAllTags [⟨1, 1, goStr "x", 0, 0, false, prioMedium, 0, [goStr "Tag"]⟩]
      = [goStr "tag"]
    ∧ getAllTags [⟨1, 1, goStr "x", 0, 0, false, prioMedium, 0, [goStr "Tag"]⟩]
      ≠ [goStr "Tag"]
    ∧ goStr "tag" ≠ goStr "Tag" := by
  refine ⟨by decide, by decide, by decide⟩

/-- Amended C8: `GetAllTags` returns the distinct lower-cased trimmed forms of
all tags across all tasks — not their first-seen casing — alphabetically
sorted, with no duplicates and no empty strings. -/
theorem claim_C8_alltags_lowercased (tasks : List Task) :
    (getAllTags tasks).Pairwise lexLe
    ∧ (getAllTags tasks).Nodup
    ∧ [] ∉ getAllTags tasks
    ∧ (∀ s, s ∈ getAllTags tasks ↔
        (s ≠ [] ∧ ∃ t ∈ tasks, ∃ tg ∈ t.tags, s = toLowerS (trimSpace tg))) := by
  have hmem : ∀ s, s ∈ getAllTags tasks ↔
      (s ≠ [] ∧ ∃ t ∈ tasks, ∃ tg ∈ t.tags, s = toLowerS (trimSpace tg)) := by
    intro s
    simp only [getAllTags, List.mem_insertionSort, List.mem_dedup, List.mem_filter,
      List.mem_map, mem_collectTags, Bool.not_eq_true', beq_eq_false_iff_ne, ne_eq]
    constructor
    · rintro ⟨⟨tg, htg, rfl⟩, hne⟩
      obtain ⟨t, ht, htags⟩ := htg
      exact ⟨hne, t, ht, tg, htags, rfl⟩
    · rintro ⟨hne, t, ht, tg, htags, rfl⟩
      exact ⟨⟨tg, ⟨t, ht, htags⟩, rfl⟩, hne⟩
  refine ⟨?_, ?_, ?_, hmem⟩
  · exact (List.sorted_insertionSort lexLe _).imp (fun {a b} h => h)
  · exact (List.perm_insertionSort lexLe _).nodup_iff.mpr (List.nodup_dedup _)
  · intro hmem0
    exact ((hmem []).mp hmem0).1 rfl

theorem findTid_none_mem (m : List (Int × User)) (tid : Int)
    (h : findTid m tid = none) : ∀ p ∈ m, p.2.telegramID ≠ tid := by
  induction m with
  | nil => intro p hp; simp at hp
  | cons a m ih =>
    obtain ⟨ak, au⟩ := a
    intro p hp
    by_cases ht : au.telegramID = tid
    · simp [findTid, ht] at h
    · simp only [findTid, if_neg ht] at h
      rcases List.mem_cons.mp hp with rfl | hp2
      · exact ht
      · exact ih h p hp2

theorem findTid_some_tid (m : List (Int × User)) (tid : Int) (u : User)
    (h : findTid m tid = some u) : u.telegramID = tid := by
  induction m with
  | nil => simp [findTid] at h
  | cons a m ih =>
    obtain ⟨ak, au⟩ := a
    by_cases ht : au.telegramID = tid
    · simp only [findTid, if_pos ht] at h
      cases h
      exact ht
    · simp only [findTid, if_neg ht] at h
      exact ih h

theorem findTid_append_none (m m2 : List (Int × User)) (tid : Int)
    (h : findTid m tid = none) : findTid (m ++ m2) tid = findTid m2 tid := by
  induction m with
  | nil => rfl
  | cons a m ih =>
    obtain ⟨ak, au⟩ := a
    by_cases ht : au.telegramID = tid
    · simp [findTid, ht] at h
    · simp only [findTid, if_neg ht] at h
      simpa [findTid, ht] using ih h

theorem setL_of_lookup_none {α : Type} (m : List (Int × α)) (k : Int) (v : α)
    (h : lookupL m k = none) : setL m k v = m ++ [(k, v)] := by
  simp [setL, h]

/-- Counterexample to claim C7: the in-memory `CreateUser` performs no
uniqueness check, so two `CreateUser` calls with the same device id produce
two distinct users sharing that device id (and the same telegram id),
violating the claimed "no sequence of user-manager operations produces two
users sharing a deviceId or a telegramId". -/
theorem claim_C7_counterexample :
    (createUser 0 (goStr "d") 7 ((createUser 0 (goStr "d") 7 umEmpty).2)).2.users
      = [(1, ⟨1, goStr "d", 7, 0, 0⟩), (2, ⟨2, goStr "d", 7, 0, 0⟩)]
    ∧ ¬ deviceIDUnique (createUser 0 (goStr "d") 7 ((createUser 0 (goStr "d") 7 umEmpty).2)).2 := by
  refine ⟨by decide, ?_⟩
  intro h
  have h12 := h 1 2 ⟨1, goStr "d", 7, 0, 0⟩ ⟨2, goStr "d", 7, 0, 0⟩
    (by decide) (by decide) rfl
  exact absurd h12 (by decide)

/-- Amended C7: `GetOrCreateUserByTelegramID` alone is idempotent and
preserves telegram-id uniqueness: on a state with pairwise-distinct telegram
ids (and a fresh id counter) it returns a user carrying the requested id,
keeps telegram ids pairwise distinct, returns an existing record unchanged
when one matches (lookup precedes creation), and a repeated call returns the
same user without further change.  The unchecked `CreateUser` is what the
counterexample exploits; it is outside this amended guarantee. -/
theorem claim_C7_getorcreate_idempotent (now now2 tid : Int) (st : UMState)
    (hfresh : lookupL st.users st.nextID = none)
    (huniq : tidUnique st.users) :
    ((getOrCreateUserByTelegramID now tid st).1.telegramID = tid)
    ∧ tidUnique (getOrCreateUserByTelegramID now tid st).2.users
    ∧ (∀ u0, findTid st.users tid = some u0 →
        getOrCreateUserByTelegramID now tid st = (u0, st))
    ∧ (getOrCreateUserByTelegramID now2 tid (getOrCreateUserByTelegramID now tid st).2
        = ((getOrCreateUserByTelegramID now tid st).1,
           (getOrCreateUserByTelegramID now tid st).2)) := by
  cases hft : findTid st.users tid with
  | some u =>
    refine ⟨?_, ?_, ?_, ?_⟩
    · simp only [getOrCreateUserByTelegramID, hft]
      exact findTid_some_tid st.users tid u hft
    · simpa only [getOrCreateUserByTelegramID, hft] using huniq
    · intro u0 h0
      cases h0
      simp [getOrCreateUserByTelegramID, hft]
    · simp [getOrCreateUserByTelegramID, hft]
  | none =>
    have hset : setL st.users st.nextID
        ⟨st.nextID, telegramDeviceID tid, tid, now, now⟩
        = st.users ++ [(st.nextID, ⟨st.nextID, telegramDeviceID tid, tid, now, now⟩)] :=
      setL_of_lookup_none st.users st.nextID _ hfresh
    have hres : getOrCreateUserByTelegramID now tid st
        = (⟨st.nextID, telegramDeviceID tid, tid, now, now⟩,
           { users := st.users ++ [(st.nextID, ⟨st.nextID, telegramDeviceID tid, tid, now, now⟩)],
             nextID := st.nextID + 1 }) := by
      simp only [getOrCreateUserByTelegramID, hft, hset]
    refine ⟨by rw [hres], ?_, ?_, ?_⟩
    · rw [hres]
      simp only [tidUnique, List.map_append, List.map_cons, List.map_nil]
      rw [List.nodup_append]
      refine ⟨huniq, List.nodup_singleton _, ?_⟩
      intro x hx hx2
      simp only [List.mem_singleton] at hx2
      obtain ⟨p, hp, hpx⟩ := List.mem_map.mp hx
      exact findTid_none_mem st.users tid hft p hp (by rw [hpx, hx2])
    · intro u0 h0
      exact Option.noConfusion h0
    · rw [hres]
      have hfind2 : findTid (st.users
          ++ [(st.nextID, ⟨st.nextID, telegramDeviceID tid, tid, now, now⟩)]) tid
          = some ⟨st.nextID, telegramDeviceID tid, tid, now, now⟩ := by
        rw [findTid_append_none st.users _ tid hft]
        simp [findTid]
      simp only [getOrCreateUserByTelegramID, hfind2]

/-- Witness for the amended C7: get-or-create of telegram id 7 starting from
the empty user manager. -/
theorem claim_C7_witness :
    ((getOrCreateUserByTelegramID 0 7 umEmpty).1.telegramID = 7)
    ∧ tidUnique (getOrCreateUserByTelegramID 0 7 umEmpty).2.users
    ∧ (∀ u0, findTid umEmpty.users 7 = some u0 →
        getOrCreateUserByTelegramID 0 7 umEmpty = (u0, umEmpty))
    ∧ (getOrCreateUserByTelegramID 1 7 (getOrCreateUserByTelegramID 0 7 umEmpty).2
        = ((getOrCreateUserByTelegramID 0 7 umEmpty).1,
           (getOrCreateUserByTelegramID 0 7 umEmpty).2)) :=
  claim_C7_getorcreate_idempotent 0 1 7 umEmpty (by decide) (by simp [tidUnique, umEmpty])

/-- Witness for C4 at the spec's AND/OR example: among tasks tagged
`{a}`, `{b}`, `{a,b}`, filtering by tags `{a,b}` and `priority = high`,
membership is as the predicate conjunction dictates. -/
theorem claim_C4_witness :
    (⟨3, 1, goStr "x", 0, 0, false, prioHigh, 0, [goStr "a", goStr "b"]⟩ : Task)
        ∈ filterTasksAdvanced
            ⟨none, some prioHigh, [goStr "a", goStr "b"], none, none, none⟩
            [⟨1, 1, goStr "x", 0, 0, false, prioHigh, 0, [goStr "a"]⟩,
             ⟨2, 1, goStr "x", 0, 0, false, prioMedium, 0, [goStr "b"]⟩,
             ⟨3, 1, goStr "x", 0, 0, false, prioHigh, 0, [goStr "a", goStr "b"]⟩]
      ↔ ((⟨3, 1, goStr "x", 0, 0, false, prioHigh, 0, [goStr "a", goStr "b"]⟩ : Task)
            ∈ [⟨1, 1, goStr "x", 0, 0, false, prioHigh, 0, [goStr "a"]⟩,
               ⟨2, 1, goStr "x", 0, 0, false, prioMedium, 0, [goStr "b"]⟩,
               ⟨3, 1, goStr "x", 0, 0, false, prioHigh, 0, [goStr "a", goStr "b"]⟩]
          ∧ specMatches ⟨none, some prioHigh, [goStr "a", goStr "b"], none, none, none⟩
              ⟨3, 1, goStr "x", 0, 0, false, prioHigh, 0, [goStr "a", goStr "b"]⟩) :=
  (claim_C4_filter_advanced
    ⟨none, some prioHigh, [goStr "a", goStr "b"], none, none, none⟩
    [⟨1, 1, goStr "x", 0, 0, false, prioHigh, 0, [goStr "a"]⟩,
     ⟨2, 1, goStr "x", 0, 0, false, prioMedium, 0, [goStr "b"]⟩,
     ⟨3, 1, goStr "x", 0, 0, false, prioHigh, 0, [goStr "a", goStr "b"]⟩]).2.2.1
    ⟨3, 1, goStr "x", 0, 0, false, prioHigh, 0, [goStr "a", goStr "b"]⟩

/-- Witness for C5: an uncompleted task due exactly 7 days from `now = 0`
is returned by `GetUpcomingTasks(7)`. -/
theorem claim_C5_witness :
    (⟨1, 1, goStr "x", 0, 0, false, prioMedium, 604800000000000, []⟩ : Task)
      ∈ getUpcomingTasks 0 7
          [⟨1, 1, goStr "x", 0, 0, false, prioMedium, 604800000000000, []⟩] :=
  (claim_C5_upcoming_window 0 7
    [⟨1, 1, goStr "x", 0, 0, false, prioMedium, 604800000000000, []⟩]).2.2.2.2.1
    (by decide)
    ⟨1, 1, goStr "x", 0, 0, false, prioMedium, 604800000000000, []⟩
    (by decide) rfl (by decide) (by decide)

/-- Witness for the amended C8 on a concrete snapshot: the empty string is
never among the returned tags. -/
theorem claim_C8_witness :
    [] ∉ getAllTags [⟨1, 1, goStr "x", 0, 0, false, prioMedium, 0, [goStr "Tag", goStr " "]⟩] :=
  (claim_C8_alltags_lowercased
    [⟨1, 1, goStr "x", 0, 0, false, prioMedium, 0, [goStr "Tag", goStr " "]⟩]).2.2.1

end TodoApp
